import Mathlib

/-!
Verification of the cell-range rendering and key-recycling core of the
AdobeXD/react-virtualized fork (src/source/Grid/defaultCellRangeRenderer.js and
the variant of the same file shipped in the repository's second copy).

The JavaScript is embedded shallowly:

* A grid coordinate is a pair of natural numbers.  The source addresses cells
  by the string key produced by getKey(rowIndex, columnIndex), namely the
  decimal digits of the row, a dash, and the decimal digits of the column.
  On non-negative integers this encoding is a bijection onto the strings it
  produces, so the embedding uses the pair itself as the map key.
* A JavaScript Map is modelled as an association list with get returning the
  binding introduced by the most recent set; Map.set m k v is observationally
  the list extended at the front (only get is ever applied to these maps).
* The usedKeys array (a sparse boolean array where usedKeys[k] = true marks k)
  is modelled as the list of marked numbers; truthiness of usedKeys[k] is
  membership.
* The identity key carried by a rendered cell is `slot.toString()` in the
  source and is compared with parseInt in the sort comparator; decimal
  stringification is injective and parseInt is its left inverse on these
  strings, so the embedding keeps the numeric slot key itself.
-/

abbrev Coord := Nat × Nat

/-- Association-list model of the JavaScript Map from cell keys to slot keys. -/
def KeyMap := List (Coord × Nat)

instance : DecidableEq KeyMap := by
  unfold KeyMap
  infer_instance

/-- Map.get: the most recently set binding for a key, if any. -/
def KeyMap.get : KeyMap → Coord → Option Nat
  | [], _ => none
  | (k, v) :: m, k' => if k' = k then some v else KeyMap.get m k'

/-- Map.set: later bindings shadow earlier ones, so consing is observationally
the JavaScript in-place update for every subsequent get. -/
def KeyMap.set (m : KeyMap) (k : Coord) (v : Nat) : KeyMap := (k, v) :: m

/-- A map is injective on its domain when no two coordinates hold the same
slot key. -/
def KeyMap.InjOn (m : KeyMap) : Prop :=
  ∀ k1 k2 v, m.get k1 = some v → m.get k2 = some v → k1 = k2

/-- The row-major list of coordinates visited by foreachKey (and by the main
rendering loop): rows rowStartIndex..rowStopIndex inclusive, and inside each
row the columns columnStartIndex..columnStopIndex inclusive.  A stop index
below its start index yields no iterations, as for the JavaScript for-loops. -/
def coords (rowStartIndex rowStopIndex columnStartIndex columnStopIndex : Nat) : List Coord :=
  (List.range' rowStartIndex (rowStopIndex + 1 - rowStartIndex)).flatMap fun r =>
    (List.range' columnStartIndex (columnStopIndex + 1 - columnStartIndex)).map fun c => (r, c)

/-- First pass of getReusableKeyMap: carry forward the slot key a coordinate
had in the previous assignment and mark that key as used. -/
def passOne (lastMap : KeyMap) : List Coord → KeyMap × List Nat → KeyMap × List Nat
  | [], st => st
  | k :: ks, (newMap, usedKeys) =>
    match lastMap.get k with
    | some lastKey => passOne lastMap ks (newMap.set k lastKey, lastKey :: usedKeys)
    | none => passOne lastMap ks (newMap, usedKeys)

/-- Bounded form of the while-loop of the second pass.  Once the cursor passes
every marked key the loop of the source necessarily stops, so running it with
fuel that reaches beyond the largest marked key is the loop itself. -/
def findFreeAux (usedKeys : List Nat) : Nat → Nat → Nat
  | 0, nextKey => nextKey
  | fuel + 1, nextKey =>
    if nextKey ∈ usedKeys then findFreeAux usedKeys fuel (nextKey + 1) else nextKey

/-- The while-loop of the second pass: advance the cursor until it names a key
that is not marked used.  The source scans usedKeys upward from nextKey. -/
def findFree (usedKeys : List Nat) (nextKey : Nat) : Nat :=
  findFreeAux usedKeys (usedKeys.foldr Nat.max 0 + 1 - nextKey) nextKey

/-- Second pass of getReusableKeyMap: a coordinate that did not carry a key
forward receives the first unused key at or beyond the cursor, and the cursor
moves just past it; carried coordinates are re-set to their carried key and
re-marked used, leaving the cursor alone. -/
def passTwo : List Coord → KeyMap → List Nat → Nat → KeyMap × List Nat × Nat
  | [], newMap, usedKeys, nextKey => (newMap, usedKeys, nextKey)
  | k :: ks, newMap, usedKeys, nextKey =>
    match newMap.get k with
    | some newKey => passTwo ks (newMap.set k newKey) (newKey :: usedKeys) nextKey
    | none =>
      let newKey := findFree usedKeys nextKey
      passTwo ks (newMap.set k newKey) (newKey :: usedKeys) (newKey + 1)

/-- ReusableKeyCache.getReusableKeyMap: the returned map is also the state the
recycler stores for the next call (this.lastMap = newMap). -/
def getReusableKeyMap (lastMap : KeyMap) (rowStartIndex rowStopIndex columnStartIndex columnStopIndex : Nat) : KeyMap :=
  let ks := coords rowStartIndex rowStopIndex columnStartIndex columnStopIndex
  let st := passOne lastMap ks ([], [])
  (passTwo ks st.1 st.2 1).1

/-- The inclusive index range of the visible (non-overscanned) sub-rectangle
on one axis. -/
structure VisibleIndices where
  start : Nat
  stop : Nat

/-- The answer of getSizeAndPositionOfCell for one index on one axis. -/
structure SizeAndPosition where
  offset : Int
  size : Nat
deriving DecidableEq

/-- The per-axis size manager as the renderer uses it: an index resolver and
the offsets-adjusted query. -/
structure SizeAndPositionManager where
  getSizeAndPositionOfCell : Nat → SizeAndPosition
  areOffsetsAdjusted : Bool

/-- A position style.  The source always sets position to the constant
absolute, which is therefore omitted; a height or width of none encodes the
CSS value auto used by the placeholder style. -/
structure Style where
  height : Option Nat
  left : Int
  top : Int
  width : Option Nat
deriving DecidableEq

/-- The argument object handed to the cellRenderer callback.  The parent
handle is omitted: the embedding tracks no per-parent warning flag, since the
one-time console warning is a non-production diagnostic with no effect on the
returned cells.  The key field holds the numeric content of the reuseKey
string. -/
structure CellRendererParams where
  columnIndex : Nat
  isScrolling : Bool
  isVisible : Bool
  key : Nat
  rowIndex : Nat
  style : Style
deriving DecidableEq

/-- A rendered cell: the identity key (numeric content of the key string) and
the rest of the element, opaque to the renderer.  Object.assign with a key
override copies the content unchanged and replaces the key. -/
structure Cell (α : Type) where
  key : Nat
  content : α
deriving DecidableEq

/-- The full argument object of defaultCellRangeRenderer.  The two mutable
caches are threaded as explicit inputs and outputs, and lastMap is the state
of the recycler instance the call uses (stored in the source as a hidden
side-table entry on the cellCache object, or on the parent in the second
variant). -/
structure RenderParams (α : Type) where
  cellCache : Coord → Option (Cell α)
  cellRenderer : CellRendererParams → Option (Cell α)
  columnSizeAndPositionManager : SizeAndPositionManager
  columnStartIndex : Nat
  columnStopIndex : Nat
  deferredMeasurementCache : Option (Nat → Nat → Bool)
  horizontalOffsetAdjustment : Int
  isScrolling : Bool
  isScrollingOptOut : Bool
  rowSizeAndPositionManager : SizeAndPositionManager
  rowStartIndex : Nat
  rowStopIndex : Nat
  styleCache : Coord → Option Style
  verticalOffsetAdjustment : Int
  visibleColumnIndices : VisibleIndices
  visibleRowIndices : VisibleIndices
  lastMap : KeyMap

/-- What one iteration of the rendering loop produces for its coordinate: the
cell pushed onto renderedCells (none when the sentinel was returned), the
cellCache and styleCache entries for this coordinate after the iteration, and
whether the cellRenderer callback ran. -/
structure StepOut (α : Type) where
  emitted : Option (Cell α)
  cellEntry : Option (Cell α)
  styleEntry : Option Style
  invoked : Bool

/-- The placeholder style for deferred cells not yet measured. -/
def placeholderStyle : Style := { height := none, left := 0, top := 0, width := none }

/-- The style computed from the two size managers plus the pixel offset
adjustments. -/
def freshStyle (p : RenderParams α) (rc : Coord) : Style :=
  let rowDatum := p.rowSizeAndPositionManager.getSizeAndPositionOfCell rc.1
  let columnDatum := p.columnSizeAndPositionManager.getSizeAndPositionOfCell rc.2
  { height := some rowDatum.size,
    left := columnDatum.offset + p.horizontalOffsetAdjustment,
    top := rowDatum.offset + p.verticalOffsetAdjustment,
    width := some columnDatum.size }

/-- Whether the coordinate lies in the visible sub-rectangle, in the source's
comparison order. -/
def isVisibleFor (p : RenderParams α) (rc : Coord) : Bool :=
  decide (p.visibleColumnIndices.start ≤ rc.2) && decide (rc.2 ≤ p.visibleColumnIndices.stop) &&
    decide (p.visibleRowIndices.start ≤ rc.1) && decide (rc.1 ≤ p.visibleRowIndices.stop)

/-- The style determination for one coordinate: the style handed to the
cellRenderer callback, paired with the styleCache entry for this coordinate
after the iteration.  The short-circuiting canCacheStyle and styleCache[key]
condition, then the deferred-measurement placeholder (which does not store),
then the computed style (which does). -/
def styleFor (p : RenderParams α) (canCacheStyle : Bool) (cachedStyle : Option Style)
    (rc : Coord) : Style × Option Style :=
  match (if canCacheStyle then cachedStyle else none) with
  | some s => (s, cachedStyle)
  | none =>
    match p.deferredMeasurementCache with
    | some has =>
      if !(has rc.1 rc.2) then (placeholderStyle, cachedStyle)
      else (freshStyle p rc, some (freshStyle p rc))
    | none => (freshStyle p rc, some (freshStyle p rc))

/-- The cache-or-construct decision of the source: cells go through the
content-instance cache only when a scroll is in progress (or the owner opted
out of cache invalidation) and both pixel offset adjustments are zero
(falsy). -/
def useCellCache (p : RenderParams α) : Bool :=
  (p.isScrollingOptOut || p.isScrolling) &&
    decide (p.horizontalOffsetAdjustment = 0) && decide (p.verticalOffsetAdjustment = 0)

/-- The body of the double loop of defaultCellRangeRenderer for one
coordinate.  Within a call the body reads and writes cellCache and styleCache
only at the current key, so it is a function of the two entries for this
coordinate; getD 0 renders the source's unconditional .toString() on the map
lookup, whose argument is never absent because the map was just built over
the same rectangle the loop iterates. -/
def stepCell (p : RenderParams α) (reusableKeyMap : KeyMap) (canCacheStyle : Bool)
    (cachedCell : Option (Cell α)) (cachedStyle : Option Style) (rc : Coord) : StepOut α :=
  let reuseKey := (reusableKeyMap.get rc).getD 0
  let styleStep := styleFor p canCacheStyle cachedStyle rc
  let cellRendererParams : CellRendererParams :=
    { columnIndex := rc.2, isScrolling := p.isScrolling, isVisible := isVisibleFor p rc,
      key := reuseKey, rowIndex := rc.1, style := styleStep.1 }
  if useCellCache p then
    let cached : Option (Cell α) × Option (Cell α) × Bool :=
      match cachedCell with
      | some cell => (some cell, some cell, false)
      | none =>
        let fresh := p.cellRenderer cellRendererParams
        (fresh, fresh, true)
    let renderedCell :=
      match cached.1 with
      | some cell => if cell.key ≠ reuseKey then some { cell with key := reuseKey } else some cell
      | none => none
    { emitted := renderedCell, cellEntry := cached.2.1, styleEntry := styleStep.2,
      invoked := cached.2.2 }
  else
    { emitted := p.cellRenderer cellRendererParams, cellEntry := cachedCell,
      styleEntry := styleStep.2, invoked := true }

/-- Pointwise update of a cache at one key. -/
def setEntry (f : Coord → β) (k : Coord) (v : β) : Coord → β :=
  fun k' => if k' = k then v else f k'

/-- The mutable state the double loop threads: the two caches, the
renderedCells accumulator, and the list of coordinates at which the
cellRenderer callback has run (the instrumentation the specification asks for
when counting constructions). -/
structure LoopState (α : Type) where
  cellCache : Coord → Option (Cell α)
  styleCache : Coord → Option Style
  renderedCells : List (Cell α)
  invoked : List Coord

/-- The double loop of defaultCellRangeRenderer over the row-major coordinate
list. -/
def renderLoop (p : RenderParams α) (reusableKeyMap : KeyMap) (canCacheStyle : Bool) :
    List Coord → LoopState α → LoopState α
  | [], st => st
  | k :: ks, st =>
    let o := stepCell p reusableKeyMap canCacheStyle (st.cellCache k) (st.styleCache k) k
    renderLoop p reusableKeyMap canCacheStyle ks
      { cellCache := setEntry st.cellCache k o.cellEntry,
        styleCache := setEntry st.styleCache k o.styleEntry,
        renderedCells := st.renderedCells ++ o.emitted.toList,
        invoked := st.invoked ++ (if o.invoked then [k] else []) }

/-- Everything a defaultCellRangeRenderer call leaves behind: the returned
collection plus the final contents of the threaded mutable state. -/
structure RenderResult (α : Type) where
  renderedCells : List (Cell α)
  cellCache : Coord → Option (Cell α)
  styleCache : Coord → Option Style
  lastMap : KeyMap
  invoked : List Coord

/-- Everything in defaultCellRangeRenderer before the final sort, shared
verbatim by both variants of the file: obtain the recycler assignment for the
rectangle, compute canCacheStyle, and run the double loop. -/
def rangeRendererLoop (p : RenderParams α) : KeyMap × LoopState α :=
  let reusableKeyMap :=
    getReusableKeyMap p.lastMap p.rowStartIndex p.rowStopIndex p.columnStartIndex p.columnStopIndex
  let areOffsetsAdjusted :=
    p.columnSizeAndPositionManager.areOffsetsAdjusted ||
      p.rowSizeAndPositionManager.areOffsetsAdjusted
  let canCacheStyle := !p.isScrolling && !areOffsetsAdjusted
  (reusableKeyMap,
    renderLoop p reusableKeyMap canCacheStyle
      (coords p.rowStartIndex p.rowStopIndex p.columnStartIndex p.columnStopIndex)
      { cellCache := p.cellCache, styleCache := p.styleCache, renderedCells := [], invoked := [] })

/-- Stable insertion for the sort comparator parseInt(b.key) - parseInt(a.key)
of src/source/Grid/defaultCellRangeRenderer.js: larger numeric keys first. -/
def insertByKeyDesc (c : Cell α) : List (Cell α) → List (Cell α)
  | [] => [c]
  | d :: ds => if c.key ≤ d.key then d :: insertByKeyDesc c ds else c :: d :: ds

/-- Stable sort realizing the descending comparator. -/
def sortByKeyDesc : List (Cell α) → List (Cell α)
  | [] => []
  | c :: cs => insertByKeyDesc c (sortByKeyDesc cs)

/-- Stable insertion for the sort comparator parseInt(a.key) - parseInt(b.key)
of the second copy of the file: smaller numeric keys first. -/
def insertByKeyAsc (c : Cell α) : List (Cell α) → List (Cell α)
  | [] => [c]
  | d :: ds => if d.key ≤ c.key then d :: insertByKeyAsc c ds else c :: d :: ds

/-- Stable sort realizing the ascending comparator. -/
def sortByKeyAsc : List (Cell α) → List (Cell α)
  | [] => []
  | c :: cs => insertByKeyAsc c (sortByKeyAsc cs)

/-- defaultCellRangeRenderer of src/source/Grid/defaultCellRangeRenderer.js:
loop, then sort by descending numeric identity key. -/
def defaultCellRangeRenderer (p : RenderParams α) : RenderResult α :=
  let r := rangeRendererLoop p
  { renderedCells := sortByKeyDesc r.2.renderedCells,
    cellCache := r.2.cellCache, styleCache := r.2.styleCache,
    lastMap := r.1, invoked := r.2.invoked }

/-- The variant of defaultCellRangeRenderer in the repository's second copy of
the file: identical loop, but the final sort is by ascending numeric identity
key (and the recycler side-table lives on the parent rather than on the
cellCache, which the explicit lastMap input already accounts for). -/
def defaultCellRangeRendererAsc (p : RenderParams α) : RenderResult α :=
  let r := rangeRendererLoop p
  { renderedCells := sortByKeyAsc r.2.renderedCells,
    cellCache := r.2.cellCache, styleCache := r.2.styleCache,
    lastMap := r.1, invoked := r.2.invoked }

/-- A size manager answering ten-pixel cells at ten-pixel offsets, offsets not
adjusted: a concrete resolver for the executable checks. -/
def flatManager : SizeAndPositionManager :=
  { getSizeAndPositionOfCell := fun i => { offset := 10 * (i : Int), size := 10 },
    areOffsetsAdjusted := false }

/-- The same resolver but reporting compressed (adjusted) offsets. -/
def adjustedManager : SizeAndPositionManager :=
  { getSizeAndPositionOfCell := fun i => { offset := 10 * (i : Int), size := 10 },
    areOffsetsAdjusted := true }

/-- A cell construction callback that respects the provided identity key, as
the repository's README instructs application renderers to do. -/
def keyedRenderer : CellRendererParams → Option (Cell Nat) :=
  fun q => some { key := q.key, content := q.rowIndex * 100 + q.columnIndex }

/-- A cell construction callback always answering the render-nothing
sentinel. -/
def nullRenderer : CellRendererParams → Option (Cell Nat) := fun _ => none

/-- A concrete argument object: one row, two columns, not scrolling, empty
caches, zero adjustments, fresh recycler. -/
def baseParams : RenderParams Nat :=
  { cellCache := fun _ => none
    cellRenderer := keyedRenderer
    columnSizeAndPositionManager := flatManager
    columnStartIndex := 0
    columnStopIndex := 1
    deferredMeasurementCache := none
    horizontalOffsetAdjustment := 0
    isScrolling := false
    isScrollingOptOut := false
    rowSizeAndPositionManager := flatManager
    rowStartIndex := 0
    rowStopIndex := 0
    styleCache := fun _ => none
    verticalOffsetAdjustment := 0
    visibleColumnIndices := { start := 0, stop := 1 }
    visibleRowIndices := { start := 0, stop := 0 }
    lastMap := [] }

/-- The rectangle a call iterates, as named subterms of the renderer. -/
def rendererCoords (p : RenderParams α) : List Coord :=
  coords p.rowStartIndex p.rowStopIndex p.columnStartIndex p.columnStopIndex

/-- The recycler assignment a call computes. -/
def rendererKeyMap (p : RenderParams α) : KeyMap :=
  getReusableKeyMap p.lastMap p.rowStartIndex p.rowStopIndex p.columnStartIndex p.columnStopIndex

/-- The canCacheStyle flag a call computes. -/
def rendererCanCacheStyle (p : RenderParams α) : Bool :=
  !p.isScrolling &&
    !(p.columnSizeAndPositionManager.areOffsetsAdjusted ||
      p.rowSizeAndPositionManager.areOffsetsAdjusted)

@[simp] theorem KeyMap.get_nil (k : Coord) : KeyMap.get [] k = none := rfl

@[simp] theorem KeyMap.get_set (m : KeyMap) (k k' : Coord) (v : Nat) :
    (m.set k v).get k' = if k' = k then some v else m.get k' := rfl

theorem KeyMap.InjOn_nil : KeyMap.InjOn [] := by
  intro k1 k2 v h
  simp [KeyMap.get] at h

theorem mem_coords {rs re cs ce : Nat} {k : Coord} :
    k ∈ coords rs re cs ce ↔ rs ≤ k.1 ∧ k.1 ≤ re ∧ cs ≤ k.2 ∧ k.2 ≤ ce := by
  rcases k with ⟨r, c⟩
  simp only [coords, List.mem_flatMap, List.mem_map, List.mem_range'_1]
  constructor
  · rintro ⟨x, ⟨hx1, hx2⟩, y, ⟨hy1, hy2⟩, h⟩
    cases h
    exact ⟨hx1, by omega, hy1, by omega⟩
  · rintro ⟨h1, h2, h3, h4⟩
    exact ⟨r, ⟨h1, by omega⟩, c, ⟨h3, by omega⟩, rfl⟩

theorem nodup_coords (rs re cs ce : Nat) : (coords rs re cs ce).Nodup := by
  rw [coords, List.nodup_flatMap]
  constructor
  · intro r _
    exact (List.nodup_range' _ _ _).map (fun a b h => by injection h)
  · have h := List.nodup_range' rs (re + 1 - rs) 1
    refine h.pairwise_of_forall_ne ?_
    intro a b _ _ hab
    intro x hx hx'
    simp only [Function.onFun, List.mem_map] at hx hx'
    rcases hx with ⟨c, _, rfl⟩
    rcases hx' with ⟨c', _, h⟩
    apply hab
    exact (congrArg Prod.fst h).symm

theorem coords_eq_nil {rs re cs ce : Nat} (h : re < rs ∨ ce < cs) :
    coords rs re cs ce = [] := by
  rcases h with h | h
  · rw [coords]
    have : re + 1 - rs = 0 := by omega
    simp [this]
  · rw [coords]
    have : ce + 1 - cs = 0 := by omega
    have hmap : ∀ r : Nat,
        (List.range' cs (ce + 1 - cs)).map (fun c => ((r, c) : Coord)) = [] := by
      intro r
      simp [this]
    simp [this]

theorem mem_le_foldr_max {x : Nat} {l : List Nat} (h : x ∈ l) :
    x ≤ l.foldr Nat.max 0 := by
  induction l with
  | nil => cases h
  | cons a l ih =>
    rcases List.mem_cons.mp h with rfl | hmem
    · exact Nat.le_max_left _ _
    · exact le_trans (ih hmem) (Nat.le_max_right _ _)

theorem findFreeAux_spec (usedKeys : List Nat) :
    ∀ fuel nextKey, usedKeys.foldr Nat.max 0 + 1 - nextKey ≤ fuel →
      findFreeAux usedKeys fuel nextKey ∉ usedKeys ∧
      nextKey ≤ findFreeAux usedKeys fuel nextKey ∧
      ∀ w, nextKey ≤ w → w < findFreeAux usedKeys fuel nextKey → w ∈ usedKeys := by
  intro fuel
  induction fuel with
  | zero =>
    intro nextKey h
    have hout : nextKey ∉ usedKeys := by
      intro hmem
      have := mem_le_foldr_max hmem
      omega
    exact ⟨hout, Nat.le_refl _, fun w hw hw' => absurd (lt_of_le_of_lt hw hw') (lt_irrefl _)⟩
  | succ fuel ih =>
    intro nextKey h
    by_cases hmem : nextKey ∈ usedKeys
    · have hle : nextKey ≤ usedKeys.foldr Nat.max 0 := mem_le_foldr_max hmem
      have h' : usedKeys.foldr Nat.max 0 + 1 - (nextKey + 1) ≤ fuel := by omega
      have hrec := ih (nextKey + 1) h'
      rw [findFreeAux, if_pos hmem]
      refine ⟨hrec.1, le_trans (Nat.le_succ _) hrec.2.1, ?_⟩
      intro w hw hw'
      rcases Nat.eq_or_lt_of_le hw with rfl | hlt
      · exact hmem
      · exact hrec.2.2 w hlt hw'
    · rw [findFreeAux, if_neg hmem]
      exact ⟨hmem, Nat.le_refl _, fun w hw hw' => absurd (lt_of_le_of_lt hw hw') (lt_irrefl _)⟩

theorem findFree_spec (usedKeys : List Nat) (nextKey : Nat) :
    findFree usedKeys nextKey ∉ usedKeys ∧
    nextKey ≤ findFree usedKeys nextKey ∧
    ∀ w, nextKey ≤ w → w < findFree usedKeys nextKey → w ∈ usedKeys :=
  findFreeAux_spec usedKeys _ nextKey (Nat.le_refl _)

example :
    (getReusableKeyMap [] 0 2 0 0).get (0, 0) = some 1 ∧
    (getReusableKeyMap [] 0 2 0 0).get (1, 0) = some 2 ∧
    (getReusableKeyMap [] 0 2 0 0).get (2, 0) = some 3 := by decide

example :
    (getReusableKeyMap (getReusableKeyMap [] 0 2 0 0) 1 3 0 0).get (1, 0) = some 2 ∧
    (getReusableKeyMap (getReusableKeyMap [] 0 2 0 0) 1 3 0 0).get (2, 0) = some 3 ∧
    (getReusableKeyMap (getReusableKeyMap [] 0 2 0 0) 1 3 0 0).get (3, 0) = some 1 := by decide

theorem KeyMap.get_set_self {m : KeyMap} {k : Coord} {v : Nat} (h : m.get k = some v)
    (k' : Coord) : (m.set k v).get k' = m.get k' := by
  by_cases hk : k' = k
  · subst hk
    simp [KeyMap.get_set, h]
  · simp [KeyMap.get_set, hk]

theorem passOne_get_not_mem (lastMap : KeyMap) (k : Coord) :
    ∀ ks : List Coord, ∀ m0 u0, k ∉ ks →
      ((passOne lastMap ks (m0, u0)).1).get k = m0.get k := by
  intro ks
  induction ks with
  | nil => intro m0 u0 _; rfl
  | cons k0 ks ih =>
    intro m0 u0 hk
    have hkk : k ≠ k0 := fun h => hk (h ▸ List.mem_cons_self _ _)
    have hks : k ∉ ks := fun h => hk (List.mem_cons_of_mem _ h)
    cases hg : lastMap.get k0 with
    | none =>
      simp only [passOne, hg]
      exact ih m0 u0 hks
    | some w =>
      simp only [passOne, hg]
      rw [ih _ _ hks]
      simp [KeyMap.get_set, hkk]

theorem passOne_get_preserve (lastMap : KeyMap) (k : Coord) (v : Nat)
    (hlast : lastMap.get k = none ∨ lastMap.get k = some v) :
    ∀ ks : List Coord, ∀ m0 u0, m0.get k = some v →
      ((passOne lastMap ks (m0, u0)).1).get k = some v := by
  intro ks
  induction ks with
  | nil => intro m0 u0 h; exact h
  | cons k0 ks ih =>
    intro m0 u0 h
    cases hg : lastMap.get k0 with
    | none =>
      simp only [passOne, hg]
      exact ih m0 u0 h
    | some w =>
      simp only [passOne, hg]
      apply ih
      by_cases hkk : k = k0
      · subst hkk
        rcases hlast with h' | h'
        · rw [hg] at h'; cases h'
        · rw [hg] at h'
          injection h' with h''
          subst h''
          simp [KeyMap.get_set]
      · simp [KeyMap.get_set, hkk, h]

theorem passOne_carried (lastMap : KeyMap) (k : Coord) (v : Nat) :
    ∀ ks : List Coord, ∀ m0 u0, k ∈ ks → lastMap.get k = some v →
      ((passOne lastMap ks (m0, u0)).1).get k = some v := by
  intro ks
  induction ks with
  | nil => intro m0 u0 hk; cases hk
  | cons k0 ks ih =>
    intro m0 u0 hk hlast
    by_cases hkk : k = k0
    · subst hkk
      simp only [passOne, hlast]
      apply passOne_get_preserve lastMap k v (Or.inr hlast)
      simp [KeyMap.get_set]
    · have hk' : k ∈ ks := by
        rcases List.mem_cons.mp hk with h | h
        · exact absurd h hkk
        · exact h
      cases hg : lastMap.get k0 with
      | none =>
        simp only [passOne, hg]
        exact ih _ _ hk' hlast
      | some w =>
        simp only [passOne, hg]
        exact ih _ _ hk' hlast

theorem passOne_not_carried (lastMap : KeyMap) (k : Coord) :
    ∀ ks : List Coord, ∀ m0 u0, lastMap.get k = none →
      ((passOne lastMap ks (m0, u0)).1).get k = m0.get k := by
  intro ks
  induction ks with
  | nil => intro m0 u0 _; rfl
  | cons k0 ks ih =>
    intro m0 u0 hlast
    cases hg : lastMap.get k0 with
    | none =>
      simp only [passOne, hg]
      exact ih m0 u0 hlast
    | some w =>
      have hkk : k ≠ k0 := by
        intro h
        rw [h, hg] at hlast
        cases hlast
      simp only [passOne, hg]
      rw [ih _ _ hlast]
      simp [KeyMap.get_set, hkk]

theorem passOne_used (lastMap : KeyMap) (v : Nat) :
    ∀ ks : List Coord, ∀ m0 u0,
      (v ∈ (passOne lastMap ks (m0, u0)).2 ↔
        v ∈ u0 ∨ ∃ k ∈ ks, lastMap.get k = some v) := by
  intro ks
  induction ks with
  | nil =>
    intro m0 u0
    simp [passOne]
  | cons k0 ks ih =>
    intro m0 u0
    cases hg : lastMap.get k0 with
    | some w =>
      simp only [passOne, hg]
      rw [ih]
      simp only [List.mem_cons]
      constructor
      · rintro ((rfl | hv) | ⟨k, hk, hlast⟩)
        · exact Or.inr ⟨k0, Or.inl rfl, hg⟩
        · exact Or.inl hv
        · exact Or.inr ⟨k, Or.inr hk, hlast⟩
      · rintro (hv | ⟨k, (rfl | hk), hlast⟩)
        · exact Or.inl (Or.inr hv)
        · rw [hg] at hlast
          injection hlast with h
          exact Or.inl (Or.inl h.symm)
        · exact Or.inr ⟨k, hk, hlast⟩
    | none =>
      simp only [passOne, hg]
      rw [ih]
      constructor
      · rintro (hv | ⟨k, hk, hlast⟩)
        · exact Or.inl hv
        · exact Or.inr ⟨k, List.mem_cons_of_mem _ hk, hlast⟩
      · rintro (hv | ⟨k, hk, hlast⟩)
        · exact Or.inl hv
        · rcases List.mem_cons.mp hk with rfl | hk'
          · rw [hg] at hlast; cases hlast
          · exact Or.inr ⟨k, hk', hlast⟩

theorem passOne_get_some (lastMap : KeyMap) (k : Coord) (v : Nat) (ks : List Coord)
    (h : ((passOne lastMap ks (([] : KeyMap), ([] : List Nat))).1).get k = some v) :
    lastMap.get k = some v ∧ k ∈ ks := by
  by_cases hk : k ∈ ks
  · cases hg : lastMap.get k with
    | none =>
      rw [passOne_not_carried lastMap k ks [] [] hg] at h
      cases h
    | some w =>
      have hc := passOne_carried lastMap k w ks [] [] hk hg
      rw [hc] at h
      injection h with h'
      subst h'
      exact ⟨rfl, hk⟩
  · rw [passOne_get_not_mem lastMap k ks [] [] hk] at h
    cases h

theorem passTwo_get_preserve (k : Coord) (v : Nat) :
    ∀ ks : List Coord, ∀ m u n, m.get k = some v →
      ((passTwo ks m u n).1).get k = some v := by
  intro ks
  induction ks with
  | nil => intro m u n h; exact h
  | cons k0 ks ih =>
    intro m u n h
    cases hg : m.get k0 with
    | some w =>
      simp only [passTwo, hg]
      apply ih
      by_cases hkk : k = k0
      · subst hkk
        rw [hg] at h
        injection h with h'
        subst h'
        simp [KeyMap.get_set]
      · simp [KeyMap.get_set, hkk, h]
    | none =>
      have hkk : k ≠ k0 := by
        intro he
        rw [he, hg] at h
        cases h
      simp only [passTwo, hg]
      apply ih
      simp [KeyMap.get_set, hkk, h]

theorem passTwo_get_not_mem (k : Coord) :
    ∀ ks : List Coord, ∀ m u n, k ∉ ks →
      ((passTwo ks m u n).1).get k = m.get k := by
  intro ks
  induction ks with
  | nil => intro m u n _; rfl
  | cons k0 ks ih =>
    intro m u n hk
    have hkk : k ≠ k0 := fun h => hk (h ▸ List.mem_cons_self _ _)
    have hks : k ∉ ks := fun h => hk (List.mem_cons_of_mem _ h)
    cases hg : m.get k0 with
    | some w =>
      simp only [passTwo, hg]
      rw [ih _ _ _ hks]
      simp [KeyMap.get_set, hkk]
    | none =>
      simp only [passTwo, hg]
      rw [ih _ _ _ hks]
      simp [KeyMap.get_set, hkk]

theorem passTwo_total (k : Coord) :
    ∀ ks : List Coord, ∀ m u n, k ∈ ks →
      (((passTwo ks m u n).1).get k).isSome := by
  intro ks
  induction ks with
  | nil => intro m u n hk; cases hk
  | cons k0 ks ih =>
    intro m u n hk
    by_cases hkk : k = k0
    · subst hkk
      cases hg : m.get k with
      | some w =>
        simp only [passTwo, hg]
        rw [passTwo_get_preserve k w ks _ _ _ (by simp [KeyMap.get_set])]
        rfl
      | none =>
        simp only [passTwo, hg]
        rw [passTwo_get_preserve k (findFree u n) ks _ _ _ (by simp [KeyMap.get_set])]
        rfl
    · have hk' : k ∈ ks := by
        rcases List.mem_cons.mp hk with h | h
        · exact absurd h hkk
        · exact h
      cases hg : m.get k0 with
      | some w =>
        simp only [passTwo, hg]
        exact ih _ _ _ hk'
      | none =>
        simp only [passTwo, hg]
        exact ih _ _ _ hk'

theorem passTwo_used_mono (v : Nat) :
    ∀ ks : List Coord, ∀ m u n, v ∈ u → v ∈ (passTwo ks m u n).2.1 := by
  intro ks
  induction ks with
  | nil => intro m u n h; exact h
  | cons k0 ks ih =>
    intro m u n h
    cases hg : m.get k0 with
    | some w =>
      simp only [passTwo, hg]
      exact ih _ _ _ (List.mem_cons_of_mem _ h)
    | none =>
      simp only [passTwo, hg]
      exact ih _ _ _ (List.mem_cons_of_mem _ h)

theorem passTwo_domain (k : Coord) :
    ∀ ks : List Coord, ∀ m u n, (((passTwo ks m u n).1).get k).isSome →
      (m.get k).isSome ∨ k ∈ ks := by
  intro ks
  induction ks with
  | nil => intro m u n h; exact Or.inl h
  | cons k0 ks ih =>
    intro m u n h
    by_cases hkk : k = k0
    · exact Or.inr (hkk ▸ List.mem_cons_self _ _)
    · cases hg : m.get k0 with
      | some w =>
        rw [passTwo] at h
        simp only [hg] at h
        rcases ih _ _ _ h with h' | h'
        · rw [KeyMap.get_set, if_neg hkk] at h'
          exact Or.inl h'
        · exact Or.inr (List.mem_cons_of_mem _ h')
      | none =>
        rw [passTwo] at h
        simp only [hg] at h
        rcases ih _ _ _ h with h' | h'
        · rw [KeyMap.get_set, if_neg hkk] at h'
          exact Or.inl h'
        · exact Or.inr (List.mem_cons_of_mem _ h')

theorem passTwo_vals :
    ∀ ks : List Coord, ∀ (m : KeyMap) u n,
      (∀ k v, m.get k = some v → v ∈ u) → (∀ v, v ∈ u → ∃ k, m.get k = some v) →
      (∀ k v, ((passTwo ks m u n).1).get k = some v → v ∈ (passTwo ks m u n).2.1) ∧
      (∀ v, v ∈ (passTwo ks m u n).2.1 → ∃ k, ((passTwo ks m u n).1).get k = some v) := by
  intro ks
  induction ks with
  | nil => intro m u n h1 h2; exact ⟨h1, h2⟩
  | cons k0 ks ih =>
    intro m u n h1 h2
    cases hg : m.get k0 with
    | some w =>
      simp only [passTwo, hg]
      apply ih
      · intro k v h
        rw [KeyMap.get_set_self hg] at h
        exact List.mem_cons_of_mem _ (h1 k v h)
      · intro v hv
        rcases List.mem_cons.mp hv with rfl | hv'
        · exact ⟨k0, by rw [KeyMap.get_set_self hg]; exact hg⟩
        · obtain ⟨k, hk⟩ := h2 v hv'
          exact ⟨k, by rw [KeyMap.get_set_self hg]; exact hk⟩
    | none =>
      simp only [passTwo, hg]
      apply ih
      · intro k v h
        rw [KeyMap.get_set] at h
        by_cases hkk : k = k0
        · rw [if_pos hkk] at h
          injection h with h'
          exact h' ▸ List.mem_cons_self _ _
        · rw [if_neg hkk] at h
          exact List.mem_cons_of_mem _ (h1 k v h)
      · intro v hv
        rcases List.mem_cons.mp hv with rfl | hv'
        · exact ⟨k0, by simp [KeyMap.get_set]⟩
        · obtain ⟨k, hk⟩ := h2 v hv'
          have hkk : k ≠ k0 := by
            intro he
            rw [he, hg] at hk
            cases hk
          exact ⟨k, by rw [KeyMap.get_set, if_neg hkk]; exact hk⟩

theorem passTwo_inj :
    ∀ ks : List Coord, ∀ (m : KeyMap) u n, m.InjOn →
      (∀ k v, m.get k = some v → v ∈ u) →
      ((passTwo ks m u n).1).InjOn := by
  intro ks
  induction ks with
  | nil => intro m u n hinj _; exact hinj
  | cons k0 ks ih =>
    intro m u n hinj h1
    cases hg : m.get k0 with
    | some w =>
      simp only [passTwo, hg]
      apply ih
      · intro k1 k2 v hx1 hx2
        rw [KeyMap.get_set_self hg] at hx1 hx2
        exact hinj k1 k2 v hx1 hx2
      · intro k v h
        rw [KeyMap.get_set_self hg] at h
        exact List.mem_cons_of_mem _ (h1 k v h)
    | none =>
      simp only [passTwo, hg]
      apply ih
      · intro k1 k2 v hx1 hx2
        rw [KeyMap.get_set] at hx1 hx2
        by_cases hk1 : k1 = k0 <;> by_cases hk2 : k2 = k0
        · rw [hk1, hk2]
        · rw [if_pos hk1] at hx1
          rw [if_neg hk2] at hx2
          injection hx1 with h'
          exfalso
          exact (findFree_spec u n).1 (h' ▸ h1 k2 v hx2)
        · rw [if_neg hk1] at hx1
          rw [if_pos hk2] at hx2
          injection hx2 with h'
          exfalso
          exact (findFree_spec u n).1 (h' ▸ h1 k1 v hx1)
        · rw [if_neg hk1] at hx1
          rw [if_neg hk2] at hx2
          exact hinj k1 k2 v hx1 hx2
      · intro k v h
        rw [KeyMap.get_set] at h
        by_cases hkk : k = k0
        · rw [if_pos hkk] at h
          injection h with h'
          exact h' ▸ List.mem_cons_self _ _
        · rw [if_neg hkk] at h
          exact List.mem_cons_of_mem _ (h1 k v h)

theorem passTwo_fresh (k : Coord) :
    ∀ ks : List Coord, ∀ m u n, ks.Nodup → k ∈ ks → m.get k = none →
      (∀ w, 0 < w → w < n → w ∈ u) →
      ∃ v, ((passTwo ks m u n).1).get k = some v ∧ v ∉ u ∧
        ∀ w, 0 < w → w < v → w ∈ (passTwo ks m u n).2.1 := by
  intro ks
  induction ks with
  | nil => intro m u n _ hk; cases hk
  | cons k0 ks ih =>
    intro m u n hnd hk hnone hcur
    by_cases hkk : k = k0
    · subst hkk
      simp only [passTwo, hnone]
      refine ⟨findFree u n, ?_, (findFree_spec u n).1, ?_⟩
      · exact passTwo_get_preserve k _ ks _ _ _ (by simp [KeyMap.get_set])
      · intro w hw0 hwlt
        apply passTwo_used_mono
        apply List.mem_cons_of_mem
        by_cases hwn : w < n
        · exact hcur w hw0 hwn
        · exact (findFree_spec u n).2.2 w (Nat.le_of_not_lt hwn) hwlt
    · have hk' : k ∈ ks := by
        rcases List.mem_cons.mp hk with h | h
        · exact absurd h hkk
        · exact h
      have hnd' : ks.Nodup := hnd.of_cons
      cases hg : m.get k0 with
      | some w =>
        simp only [passTwo, hg]
        have hnone' : (m.set k0 w).get k = none := by
          rw [KeyMap.get_set, if_neg hkk]
          exact hnone
        have hcur' : ∀ w', 0 < w' → w' < n → w' ∈ w :: u :=
          fun w' h0 hn => List.mem_cons_of_mem _ (hcur w' h0 hn)
        obtain ⟨v, hv1, hv2, hv3⟩ := ih _ _ _ hnd' hk' hnone' hcur'
        exact ⟨v, hv1, fun hu => hv2 (List.mem_cons_of_mem _ hu), hv3⟩
      | none =>
        simp only [passTwo, hg]
        have hnone' : (m.set k0 (findFree u n)).get k = none := by
          rw [KeyMap.get_set, if_neg hkk]
          exact hnone
        have hcur' : ∀ w', 0 < w' → w' < findFree u n + 1 → w' ∈ findFree u n :: u := by
          intro w' h0 hn
          rcases Nat.lt_succ_iff_lt_or_eq.mp hn with h' | rfl
          · apply List.mem_cons_of_mem
            by_cases hwn : w' < n
            · exact hcur w' h0 hwn
            · exact (findFree_spec u n).2.2 w' (Nat.le_of_not_lt hwn) h'
          · exact List.mem_cons_self _ _
        obtain ⟨v, hv1, hv2, hv3⟩ := ih _ _ _ hnd' hk' hnone' hcur'
        exact ⟨v, hv1, fun hu => hv2 (List.mem_cons_of_mem _ hu), hv3⟩

theorem getReusableKeyMap_carry {lastMap : KeyMap} {rs re cs ce : Nat} {k : Coord} {v : Nat}
    (hk : k ∈ coords rs re cs ce) (hv : lastMap.get k = some v) :
    (getReusableKeyMap lastMap rs re cs ce).get k = some v := by
  simp only [getReusableKeyMap]
  exact passTwo_get_preserve k v _ _ _ _ (passOne_carried lastMap k v _ _ _ hk hv)

theorem getReusableKeyMap_total {lastMap : KeyMap} {rs re cs ce : Nat} {k : Coord}
    (hk : k ∈ coords rs re cs ce) :
    ((getReusableKeyMap lastMap rs re cs ce).get k).isSome := by
  simp only [getReusableKeyMap]
  exact passTwo_total k _ _ _ _ hk

theorem getReusableKeyMap_not_mem {lastMap : KeyMap} {rs re cs ce : Nat} {k : Coord}
    (hk : k ∉ coords rs re cs ce) :
    (getReusableKeyMap lastMap rs re cs ce).get k = none := by
  simp only [getReusableKeyMap]
  rw [passTwo_get_not_mem k _ _ _ _ hk, passOne_get_not_mem lastMap k _ _ _ hk]
  rfl

theorem getReusableKeyMap_isSome_iff {lastMap : KeyMap} {rs re cs ce : Nat} {k : Coord} :
    ((getReusableKeyMap lastMap rs re cs ce).get k).isSome ↔ k ∈ coords rs re cs ce := by
  constructor
  · intro h
    by_contra hk
    rw [getReusableKeyMap_not_mem hk] at h
    cases h
  · exact getReusableKeyMap_total

theorem getReusableKeyMap_inj {lastMap : KeyMap} {rs re cs ce : Nat}
    (h : lastMap.InjOn) : (getReusableKeyMap lastMap rs re cs ce).InjOn := by
  simp only [getReusableKeyMap]
  apply passTwo_inj
  · intro k1 k2 v h1 h2
    obtain ⟨hl1, _⟩ := passOne_get_some lastMap k1 v _ h1
    obtain ⟨hl2, _⟩ := passOne_get_some lastMap k2 v _ h2
    exact h k1 k2 v hl1 hl2
  · intro k v hv
    obtain ⟨hl, hk⟩ := passOne_get_some lastMap k v _ hv
    rw [passOne_used]
    exact Or.inr ⟨k, hk, hl⟩

theorem getReusableKeyMap_vals {lastMap : KeyMap} {rs re cs ce : Nat} :
    (∀ k v, (getReusableKeyMap lastMap rs re cs ce).get k = some v →
      v ∈ (passTwo (coords rs re cs ce) (passOne lastMap (coords rs re cs ce) ([], [])).1
        (passOne lastMap (coords rs re cs ce) ([], [])).2 1).2.1) ∧
    (∀ v, v ∈ (passTwo (coords rs re cs ce) (passOne lastMap (coords rs re cs ce) ([], [])).1
        (passOne lastMap (coords rs re cs ce) ([], [])).2 1).2.1 →
      ∃ k, (getReusableKeyMap lastMap rs re cs ce).get k = some v) := by
  simp only [getReusableKeyMap]
  apply passTwo_vals
  · intro k v hv
    obtain ⟨hl, hk⟩ := passOne_get_some lastMap k v _ hv
    rw [passOne_used]
    exact Or.inr ⟨k, hk, hl⟩
  · intro v hv
    rw [passOne_used] at hv
    rcases hv with hv | ⟨k, hk, hl⟩
    · cases hv
    · exact ⟨k, passOne_carried lastMap k v _ _ _ hk hl⟩

theorem getReusableKeyMap_fresh_min {lastMap : KeyMap} {rs re cs ce : Nat} {k : Coord} {v : Nat}
    (hk : k ∈ coords rs re cs ce) (hfresh : lastMap.get k = none)
    (hv : (getReusableKeyMap lastMap rs re cs ce).get k = some v) :
    (∀ w, 0 < w → w < v → ∃ k', k' ∈ coords rs re cs ce ∧
      (getReusableKeyMap lastMap rs re cs ce).get k' = some w) ∧
    v ≤ (coords rs re cs ce).length := by
  have hm1 : ((passOne lastMap (coords rs re cs ce) ([], [])).1).get k = none := by
    rw [passOne_not_carried lastMap k _ _ _ hfresh]
    rfl
  have hcur : ∀ w : Nat, 0 < w → w < 1 → w ∈ (passOne lastMap (coords rs re cs ce) ([], [])).2 :=
    fun w h0 h1 => absurd (lt_of_lt_of_le h1 h0) (lt_irrefl _)
  obtain ⟨v', hv1, _, hv3⟩ :=
    passTwo_fresh k (coords rs re cs ce) _ _ 1 (nodup_coords rs re cs ce) hk hm1 hcur
  have hvv : v' = v := by
    have : (getReusableKeyMap lastMap rs re cs ce).get k = some v' := hv1
    rw [hv] at this
    injection this with h'
    exact h'.symm
  subst hvv
  have hmin : ∀ w, 0 < w → w < v' → ∃ k', k' ∈ coords rs re cs ce ∧
      (getReusableKeyMap lastMap rs re cs ce).get k' = some w := by
    intro w h0 hlt
    obtain ⟨k', hk'⟩ := getReusableKeyMap_vals.2 w (hv3 w h0 hlt)
    refine ⟨k', ?_, hk'⟩
    rw [← @getReusableKeyMap_isSome_iff lastMap rs re cs ce k']
    rw [hk']
    rfl
  refine ⟨hmin, ?_⟩
  set S : List Nat :=
    (coords rs re cs ce).filterMap ((getReusableKeyMap lastMap rs re cs ce).get) with hS
  have hsub : ∀ w, w ∈ List.range' 1 v' → w ∈ S := by
    intro w hw
    rw [List.mem_range'_1] at hw
    rw [hS, List.mem_filterMap]
    rcases Nat.lt_or_ge w v' with hlt | hge
    · obtain ⟨k', hk1, hk2⟩ := hmin w hw.1 hlt
      exact ⟨k', hk1, hk2⟩
    · have hwe : w = v' := by omega
      exact ⟨k, hk, hwe ▸ hv⟩
  have hsubF : (List.range' 1 v').toFinset ⊆ S.toFinset := by
    intro w hw
    rw [List.mem_toFinset] at hw ⊢
    exact hsub w hw
  have h1 : (List.range' 1 v').toFinset.card = v' := by
    rw [List.toFinset_card_of_nodup (List.nodup_range' _ _ _)]
    exact List.length_range' _ _ _
  have h2 := Finset.card_le_card hsubF
  have h3 := List.toFinset_card_le S
  have h4 : S.length ≤ (coords rs re cs ce).length := List.length_filterMap_le _ _
  omega

/-- C1: for every rectangle and every prior recycler state satisfying the
injectivity invariant (which holds of the empty initial state and is
preserved by every call, so of every reachable state), the assignment
returned by one getReusableKeyMap call gives every coordinate of the
rectangle exactly one slot key (get is single valued and defined on the whole
rectangle), the slot keys assigned within the call are pairwise distinct, and
the stored assignment again satisfies the invariant. -/
theorem c1_per_call_keys_distinct (lastMap : KeyMap) (rs re cs ce : Nat)
    (hm : lastMap.InjOn) :
    (∀ k, k ∈ coords rs re cs ce → ((getReusableKeyMap lastMap rs re cs ce).get k).isSome) ∧
    (∀ k1 k2 v, k1 ∈ coords rs re cs ce → k2 ∈ coords rs re cs ce →
      (getReusableKeyMap lastMap rs re cs ce).get k1 = some v →
      (getReusableKeyMap lastMap rs re cs ce).get k2 = some v → k1 = k2) ∧
    (getReusableKeyMap lastMap rs re cs ce).InjOn ∧
    KeyMap.InjOn [] := by
  have hinj := @getReusableKeyMap_inj lastMap rs re cs ce hm
  exact ⟨fun k hk => getReusableKeyMap_total hk,
    fun k1 k2 v _ _ h1 h2 => hinj k1 k2 v h1 h2,
    hinj, KeyMap.InjOn_nil⟩

theorem c1_per_call_keys_distinct_witness :
    KeyMap.InjOn ([] : KeyMap) ∧ ((getReusableKeyMap [] 0 1 0 0).get (1, 0)).isSome :=
  ⟨KeyMap.InjOn_nil,
    (c1_per_call_keys_distinct [] 0 1 0 0 KeyMap.InjOn_nil).1 (1, 0) (by decide)⟩

/-- C2: for two consecutive getReusableKeyMap calls on the same recycler,
every coordinate lying in both rectangles receives in the second call exactly
the slot key the first call gave it (and the first call did give it one). -/
theorem c2_key_stability (lastMap : KeyMap) (rs re cs ce rs' re' cs' ce' : Nat) (k : Coord)
    (h1 : k ∈ coords rs re cs ce) (h2 : k ∈ coords rs' re' cs' ce') :
    ((getReusableKeyMap lastMap rs re cs ce).get k).isSome ∧
    (getReusableKeyMap (getReusableKeyMap lastMap rs re cs ce) rs' re' cs' ce').get k =
      (getReusableKeyMap lastMap rs re cs ce).get k := by
  have h := @getReusableKeyMap_total lastMap rs re cs ce k h1
  refine ⟨h, ?_⟩
  obtain ⟨v, hv⟩ := Option.isSome_iff_exists.mp h
  rw [hv]
  exact getReusableKeyMap_carry h2 hv

theorem c2_key_stability_witness :
    (getReusableKeyMap (getReusableKeyMap [] 0 1 0 0) 1 2 0 0).get (1, 0) =
      (getReusableKeyMap [] 0 1 0 0).get (1, 0) :=
  (c2_key_stability [] 0 1 0 0 1 2 0 0 (1, 0) (by decide) (by decide)).2

/-- C5 counterexample: the claim's bound fails.  After a first call on the
two-cell rectangle rows 0..1 x column 0, a second call on the one-cell
rectangle rows 1..1 x column 0 carries the slot key 2 forward, so its
returned assignment uses the key 2 although the rectangle has N = 1
coordinates. -/
theorem c5_cex_max_key_exceeds_rectangle :
    (getReusableKeyMap (getReusableKeyMap [] 0 1 0 0) 1 1 0 0).get (1, 0) = some 2 ∧
    (coords 1 1 0 0).length = 1 ∧ ¬ (2 ≤ 1) := by decide

/-- C5 as amended: a coordinate of the rectangle that needs a new slot key
(one the prior assignment does not cover) receives the smallest positive
integer not already in use: every positive integer below its key is assigned
to some coordinate of the rectangle in the returned assignment, and the key
itself is at most N, the number of coordinates of the rectangle.  Only
carried-forward keys can exceed N. -/
theorem c5_fresh_key_minimal (lastMap : KeyMap) (rs re cs ce : Nat) (k : Coord) (v : Nat)
    (hk : k ∈ coords rs re cs ce) (hfresh : lastMap.get k = none)
    (hv : (getReusableKeyMap lastMap rs re cs ce).get k = some v) :
    (∀ w, 0 < w → w < v → ∃ k', k' ∈ coords rs re cs ce ∧
      (getReusableKeyMap lastMap rs re cs ce).get k' = some w) ∧
    v ≤ (coords rs re cs ce).length :=
  getReusableKeyMap_fresh_min hk hfresh hv

theorem c5_fresh_key_minimal_witness :
    2 ≤ (coords 0 0 0 1).length :=
  (c5_fresh_key_minimal [] 0 0 0 1 (0, 1) 2 (by decide) (by decide) (by decide)).2

/-- C10: after a getReusableKeyMap call the stored assignment (which is the
returned map) is defined exactly on the coordinates of the rectangle just
processed; a call whose rectangle is empty (a stop index below its start
index) stores the empty map; and a call made after such an empty call starts
from the empty assignment, so its keys are chosen as by a fresh recycler
rather than carried from the call before the empty one. -/
theorem c10_domain_and_empty_reset (m : KeyMap)
    (rs re cs ce rs2 re2 cs2 ce2 rs3 re3 cs3 ce3 : Nat)
    (h : re2 < rs2 ∨ ce2 < cs2) :
    (∀ k, ((getReusableKeyMap m rs re cs ce).get k).isSome ↔ k ∈ coords rs re cs ce) ∧
    getReusableKeyMap m rs2 re2 cs2 ce2 = [] ∧
    getReusableKeyMap (getReusableKeyMap m rs2 re2 cs2 ce2) rs3 re3 cs3 ce3 =
      getReusableKeyMap [] rs3 re3 cs3 ce3 := by
  have hnil : getReusableKeyMap m rs2 re2 cs2 ce2 = [] := by
    simp only [getReusableKeyMap, coords_eq_nil h]
    rfl
  exact ⟨fun k => getReusableKeyMap_isSome_iff, hnil, by rw [hnil]⟩

theorem c10_domain_and_empty_reset_witness :
    getReusableKeyMap [((0, 0), 5)] 3 2 0 0 = [] :=
  (c10_domain_and_empty_reset [((0, 0), 5)] 0 0 0 0 3 2 0 0 0 0 0 0
    (Or.inl (by decide))).2.1

theorem insertByKeyDesc_perm (c : Cell α) (l : List (Cell α)) :
    (insertByKeyDesc c l).Perm (c :: l) := by
  induction l with
  | nil => exact List.Perm.refl _
  | cons d ds ih =>
    rw [insertByKeyDesc]
    by_cases h : c.key ≤ d.key
    · rw [if_pos h]
      exact (ih.cons d).trans (List.Perm.swap c d ds)
    · rw [if_neg h]

theorem sortByKeyDesc_perm (l : List (Cell α)) : (sortByKeyDesc l).Perm l := by
  induction l with
  | nil => exact List.Perm.refl _
  | cons c cs ih =>
    rw [sortByKeyDesc]
    exact (insertByKeyDesc_perm c _).trans (ih.cons c)

theorem insertByKeyDesc_sorted (c : Cell α) (l : List (Cell α))
    (h : l.Pairwise (fun a b => b.key ≤ a.key)) :
    (insertByKeyDesc c l).Pairwise (fun a b => b.key ≤ a.key) := by
  induction l with
  | nil => simp [insertByKeyDesc]
  | cons d ds ih =>
    rw [List.pairwise_cons] at h
    rw [insertByKeyDesc]
    by_cases hc : c.key ≤ d.key
    · rw [if_pos hc]
      rw [List.pairwise_cons]
      constructor
      · intro x hx
        rcases List.mem_cons.mp ((insertByKeyDesc_perm c ds).mem_iff.mp hx) with rfl | hx'
        · exact hc
        · exact h.1 x hx'
      · exact ih h.2
    · rw [if_neg hc]
      rw [List.pairwise_cons]
      constructor
      · intro x hx
        rcases List.mem_cons.mp hx with rfl | hx'
        · exact Nat.le_of_not_le hc
        · exact le_trans (h.1 x hx') (Nat.le_of_not_le hc)
      · exact List.pairwise_cons.mpr h

theorem sortByKeyDesc_sorted (l : List (Cell α)) :
    (sortByKeyDesc l).Pairwise (fun a b => b.key ≤ a.key) := by
  induction l with
  | nil => exact List.Pairwise.nil
  | cons c cs ih => exact insertByKeyDesc_sorted c _ ih

theorem insertByKeyAsc_perm (c : Cell α) (l : List (Cell α)) :
    (insertByKeyAsc c l).Perm (c :: l) := by
  induction l with
  | nil => exact List.Perm.refl _
  | cons d ds ih =>
    rw [insertByKeyAsc]
    by_cases h : d.key ≤ c.key
    · rw [if_pos h]
      exact (ih.cons d).trans (List.Perm.swap c d ds)
    · rw [if_neg h]

theorem sortByKeyAsc_perm (l : List (Cell α)) : (sortByKeyAsc l).Perm l := by
  induction l with
  | nil => exact List.Perm.refl _
  | cons c cs ih =>
    rw [sortByKeyAsc]
    exact (insertByKeyAsc_perm c _).trans (ih.cons c)

theorem insertByKeyAsc_sorted (c : Cell α) (l : List (Cell α))
    (h : l.Pairwise (fun a b => a.key ≤ b.key)) :
    (insertByKeyAsc c l).Pairwise (fun a b => a.key ≤ b.key) := by
  induction l with
  | nil => simp [insertByKeyAsc]
  | cons d ds ih =>
    rw [List.pairwise_cons] at h
    rw [insertByKeyAsc]
    by_cases hc : d.key ≤ c.key
    · rw [if_pos hc]
      rw [List.pairwise_cons]
      constructor
      · intro x hx
        rcases List.mem_cons.mp ((insertByKeyAsc_perm c ds).mem_iff.mp hx) with rfl | hx'
        · exact hc
        · exact h.1 x hx'
      · exact ih h.2
    · rw [if_neg hc]
      rw [List.pairwise_cons]
      constructor
      · intro x hx
        rcases List.mem_cons.mp hx with rfl | hx'
        · exact Nat.le_of_not_le hc
        · exact le_trans (Nat.le_of_not_le hc) (h.1 x hx')
      · exact List.pairwise_cons.mpr h

theorem sortByKeyAsc_sorted (l : List (Cell α)) :
    (sortByKeyAsc l).Pairwise (fun a b => a.key ≤ b.key) := by
  induction l with
  | nil => exact List.Pairwise.nil
  | cons c cs ih => exact insertByKeyAsc_sorted c _ ih

theorem renderLoop_cells (p : RenderParams α) (rkm : KeyMap) (ccs : Bool) :
    ∀ ks : List Coord, ∀ st : LoopState α, ks.Nodup →
      (renderLoop p rkm ccs ks st).renderedCells =
        st.renderedCells ++ ks.filterMap
          (fun k => (stepCell p rkm ccs (st.cellCache k) (st.styleCache k) k).emitted) := by
  intro ks
  induction ks with
  | nil => intro st _; simp [renderLoop]
  | cons k0 ks ih =>
    intro st hnd
    have hk0 : k0 ∉ ks := (List.nodup_cons.mp hnd).1
    rw [renderLoop]
    rw [ih _ hnd.of_cons]
    have hcong : ks.filterMap
        (fun k => (stepCell p rkm ccs (setEntry st.cellCache k0
          (stepCell p rkm ccs (st.cellCache k0) (st.styleCache k0) k0).cellEntry k)
          (setEntry st.styleCache k0
            (stepCell p rkm ccs (st.cellCache k0) (st.styleCache k0) k0).styleEntry k)
          k).emitted) =
        ks.filterMap
          (fun k => (stepCell p rkm ccs (st.cellCache k) (st.styleCache k) k).emitted) := by
      apply List.filterMap_congr
      intro k hk
      have hne : k ≠ k0 := fun h => hk0 (h ▸ hk)
      simp only [setEntry]
      simp [if_neg hne]
    simp only [hcong]
    rw [List.filterMap_cons]
    cases hfk : (stepCell p rkm ccs (st.cellCache k0) (st.styleCache k0) k0).emitted with
    | none => simp [hfk, Option.toList]
    | some b => simp [hfk, Option.toList]

theorem renderLoop_invoked (p : RenderParams α) (rkm : KeyMap) (ccs : Bool) :
    ∀ ks : List Coord, ∀ st : LoopState α, ks.Nodup →
      (renderLoop p rkm ccs ks st).invoked =
        st.invoked ++ ks.filter
          (fun k => (stepCell p rkm ccs (st.cellCache k) (st.styleCache k) k).invoked) := by
  intro ks
  induction ks with
  | nil => intro st _; simp [renderLoop]
  | cons k0 ks ih =>
    intro st hnd
    have hk0 : k0 ∉ ks := (List.nodup_cons.mp hnd).1
    rw [renderLoop]
    rw [ih _ hnd.of_cons]
    have hcong : ks.filter
        (fun k => (stepCell p rkm ccs (setEntry st.cellCache k0
          (stepCell p rkm ccs (st.cellCache k0) (st.styleCache k0) k0).cellEntry k)
          (setEntry st.styleCache k0
            (stepCell p rkm ccs (st.cellCache k0) (st.styleCache k0) k0).styleEntry k)
          k).invoked) =
        ks.filter
          (fun k => (stepCell p rkm ccs (st.cellCache k) (st.styleCache k) k).invoked) := by
      apply List.filter_congr
      intro k hk
      have hne : k ≠ k0 := fun h => hk0 (h ▸ hk)
      simp only [setEntry]
      simp [if_neg hne]
    simp only [hcong]
    rw [List.filter_cons]
    cases hfk : (stepCell p rkm ccs (st.cellCache k0) (st.styleCache k0) k0).invoked <;>
      simp [hfk]

theorem renderLoop_cellCache (p : RenderParams α) (rkm : KeyMap) (ccs : Bool) :
    ∀ ks : List Coord, ∀ st : LoopState α, ks.Nodup → ∀ k,
      (renderLoop p rkm ccs ks st).cellCache k =
        if k ∈ ks then (stepCell p rkm ccs (st.cellCache k) (st.styleCache k) k).cellEntry
        else st.cellCache k := by
  intro ks
  induction ks with
  | nil => intro st _ k; simp [renderLoop]
  | cons k0 ks ih =>
    intro st hnd k
    have hk0 : k0 ∉ ks := (List.nodup_cons.mp hnd).1
    rw [renderLoop]
    rw [ih _ hnd.of_cons k]
    by_cases hmem : k ∈ ks
    · have hne : k ≠ k0 := fun h => hk0 (h ▸ hmem)
      rw [if_pos hmem, if_pos (List.mem_cons_of_mem _ hmem)]
      simp only [setEntry]
      simp [if_neg hne]
    · rw [if_neg hmem]
      by_cases hk : k = k0
      · subst hk
        rw [if_pos (List.mem_cons_self _ _)]
        simp only [setEntry]
        simp
      · have hnotmem : k ∉ k0 :: ks := by
          intro h
          rcases List.mem_cons.mp h with h' | h'
          · exact hk h'
          · exact hmem h'
        rw [if_neg hnotmem]
        simp only [setEntry]
        simp [if_neg hk]

theorem renderLoop_styleCache (p : RenderParams α) (rkm : KeyMap) (ccs : Bool) :
    ∀ ks : List Coord, ∀ st : LoopState α, ks.Nodup → ∀ k,
      (renderLoop p rkm ccs ks st).styleCache k =
        if k ∈ ks then (stepCell p rkm ccs (st.cellCache k) (st.styleCache k) k).styleEntry
        else st.styleCache k := by
  intro ks
  induction ks with
  | nil => intro st _ k; simp [renderLoop]
  | cons k0 ks ih =>
    intro st hnd k
    have hk0 : k0 ∉ ks := (List.nodup_cons.mp hnd).1
    rw [renderLoop]
    rw [ih _ hnd.of_cons k]
    by_cases hmem : k ∈ ks
    · have hne : k ≠ k0 := fun h => hk0 (h ▸ hmem)
      rw [if_pos hmem, if_pos (List.mem_cons_of_mem _ hmem)]
      simp only [setEntry]
      simp [if_neg hne]
    · rw [if_neg hmem]
      by_cases hk : k = k0
      · subst hk
        rw [if_pos (List.mem_cons_self _ _)]
        simp only [setEntry]
        simp
      · have hnotmem : k ∉ k0 :: ks := by
          intro h
          rcases List.mem_cons.mp h with h' | h'
          · exact hk h'
          · exact hmem h'
        rw [if_neg hnotmem]
        simp only [setEntry]
        simp [if_neg hk]

theorem styleFor_fst_nocache (p : RenderParams α) (sc sc' : Option Style) (rc : Coord) :
    (styleFor p false sc rc).1 = (styleFor p false sc' rc).1 := by
  simp only [styleFor, Bool.false_eq_true, if_false]
  cases p.deferredMeasurementCache with
  | none => rfl
  | some has =>
    by_cases h : has rc.1 rc.2 <;> simp [h]

theorem styleFor_snd_nocache (p : RenderParams α) (sc : Option Style) (rc : Coord)
    (hdef : ∀ has, p.deferredMeasurementCache = some has → has rc.1 rc.2 = true) :
    (styleFor p false sc rc).2 = some (freshStyle p rc) := by
  simp only [styleFor, Bool.false_eq_true, if_false]
  cases hdm : p.deferredMeasurementCache with
  | none => rfl
  | some has =>
    have h := hdef has hdm
    simp [h]

theorem stepCell_styleEntry (p : RenderParams α) (rkm : KeyMap) (ccs : Bool)
    (cc : Option (Cell α)) (sc : Option Style) (rc : Coord) :
    (stepCell p rkm ccs cc sc rc).styleEntry = (styleFor p ccs sc rc).2 := by
  simp only [stepCell]
  split
  · cases cc <;> rfl
  · rfl

theorem stepCell_nocache_congr (p : RenderParams α) (rkm : KeyMap)
    (cc : Option (Cell α)) (sc sc' : Option Style) (rc : Coord) :
    (stepCell p rkm false cc sc rc).emitted = (stepCell p rkm false cc sc' rc).emitted ∧
    (stepCell p rkm false cc sc rc).cellEntry = (stepCell p rkm false cc sc' rc).cellEntry ∧
    (stepCell p rkm false cc sc rc).invoked = (stepCell p rkm false cc sc' rc).invoked := by
  have hst := styleFor_fst_nocache p sc sc' rc
  by_cases huse : useCellCache p = true
  · simp only [stepCell, hst, if_pos huse]
    simp
  · simp only [stepCell, hst, if_neg huse]
    simp

theorem stepCell_key (p : RenderParams α) (rkm : KeyMap) (ccs : Bool)
    (cc : Option (Cell α)) (sc : Option Style) (rc : Coord) (v : Nat)
    (hr : ∀ q c', p.cellRenderer q = some c' → c'.key = q.key)
    (hv : rkm.get rc = some v) :
    ∀ c', (stepCell p rkm ccs cc sc rc).emitted = some c' → c'.key = v := by
  intro c' hc'
  simp only [stepCell, hv, Option.getD_some] at hc'
  by_cases huse : useCellCache p = true
  · rw [if_pos huse] at hc'
    cases cc with
    | some cell =>
      simp only at hc'
      by_cases hk : cell.key ≠ v
      · rw [if_pos hk] at hc'
        injection hc' with h'
        rw [← h']
      · rw [if_neg hk] at hc'
        injection hc' with h'
        rw [← h']
        exact Decidable.not_not.mp hk
    | none =>
      simp only at hc'
      cases hrender : p.cellRenderer
          { columnIndex := rc.2, isScrolling := p.isScrolling, isVisible := isVisibleFor p rc,
            key := v, rowIndex := rc.1, style := (styleFor p ccs sc rc).1 } with
      | none => rw [hrender] at hc'; cases hc'
      | some cell =>
        rw [hrender] at hc'
        simp only at hc'
        by_cases hk : cell.key ≠ v
        · rw [if_pos hk] at hc'
          injection hc' with h'
          rw [← h']
        · rw [if_neg hk] at hc'
          injection hc' with h'
          rw [← h']
          exact Decidable.not_not.mp hk
  · rw [if_neg huse] at hc'
    exact hr _ _ hc'

theorem stepCell_entry_isSome (p : RenderParams α) (rkm : KeyMap) (ccs : Bool)
    (cc : Option (Cell α)) (sc : Option Style) (rc : Coord)
    (huse : useCellCache p = true) (hr : ∀ q, (p.cellRenderer q).isSome) :
    ((stepCell p rkm ccs cc sc rc).cellEntry).isSome := by
  simp only [stepCell]
  rw [if_pos huse]
  cases cc with
  | some cell => rfl
  | none => exact hr _

theorem stepCell_invoked_cache_hit (p : RenderParams α) (rkm : KeyMap) (ccs : Bool)
    (cell : Cell α) (sc : Option Style) (rc : Coord)
    (huse : useCellCache p = true) :
    (stepCell p rkm ccs (some cell) sc rc).invoked = false := by
  simp only [stepCell]
  rw [if_pos huse]

theorem stepCell_cache_mismatch (p : RenderParams α) (rkm : KeyMap) (ccs : Bool)
    (cell : Cell α) (sc : Option Style) (rc : Coord) (v : Nat)
    (huse : useCellCache p = true) (hv : rkm.get rc = some v) (hne : cell.key ≠ v) :
    (stepCell p rkm ccs (some cell) sc rc).cellEntry = some cell ∧
    (stepCell p rkm ccs (some cell) sc rc).emitted =
      some { key := v, content := cell.content } := by
  refine ⟨?_, ?_⟩
  · simp only [stepCell, if_pos huse]
  · simp only [stepCell, hv, Option.getD_some, if_pos huse]
    rw [if_pos hne]

/-- C3 counterexample: the variant of defaultCellRangeRenderer in
src/source/Grid/defaultCellRangeRenderer.js sorts by the comparator
parseInt(b.key) - parseInt(a.key), so on a fresh one-row two-column rectangle
it returns the keys in the order 2, 1, which is not ascending. -/
theorem c3_cex_not_ascending :
    ((defaultCellRangeRenderer baseParams).renderedCells.map Cell.key = [2, 1]) ∧
    ¬ List.Pairwise (fun a b => a ≤ b)
      ((defaultCellRangeRenderer baseParams).renderedCells.map Cell.key) := by
  constructor
  · decide
  · intro h
    have h2 : ((defaultCellRangeRenderer baseParams).renderedCells.map Cell.key) = [2, 1] := by
      decide
    rw [h2] at h
    rcases List.pairwise_cons.mp h with ⟨h3, _⟩
    exact absurd (h3 1 (List.mem_cons_self _ _)) (by decide)

/-- C3 as amended: the returned collection is sorted by numeric identity key,
but the direction depends on the variant: the copy under src/source sorts
descending, the repository's second copy of the file sorts ascending. -/
theorem c3_sort_directions (p : RenderParams α) :
    ((defaultCellRangeRenderer p).renderedCells.Pairwise fun a b => b.key ≤ a.key) ∧
    ((defaultCellRangeRendererAsc p).renderedCells.Pairwise fun a b => a.key ≤ b.key) :=
  ⟨sortByKeyDesc_sorted _, sortByKeyAsc_sorted _⟩

/-- C9: for identical inputs (rectangle, caches, flags, resolvers, prior
recycler state) the descending-sort variant and the ascending-sort variant
return the same multiset of rendered cells; they can differ only in order. -/
theorem c9_variants_same_multiset (p : RenderParams α) :
    (defaultCellRangeRenderer p).renderedCells.Perm
      (defaultCellRangeRendererAsc p).renderedCells :=
  (sortByKeyDesc_perm _).trans (sortByKeyAsc_perm _).symm

theorem renderer_cells_eq (p : RenderParams α) :
    (defaultCellRangeRenderer p).renderedCells =
      sortByKeyDesc ((rendererCoords p).filterMap
        (fun k => (stepCell p (rendererKeyMap p) (rendererCanCacheStyle p)
          (p.cellCache k) (p.styleCache k) k).emitted)) := by
  simp only [defaultCellRangeRenderer, rangeRendererLoop, rendererCoords, rendererKeyMap,
    rendererCanCacheStyle]
  rw [renderLoop_cells p _ _ _ _ (nodup_coords _ _ _ _)]
  simp

theorem renderer_invoked_eq (p : RenderParams α) :
    (defaultCellRangeRenderer p).invoked =
      (rendererCoords p).filter
        (fun k => (stepCell p (rendererKeyMap p) (rendererCanCacheStyle p)
          (p.cellCache k) (p.styleCache k) k).invoked) := by
  simp only [defaultCellRangeRenderer, rangeRendererLoop, rendererCoords, rendererKeyMap,
    rendererCanCacheStyle]
  rw [renderLoop_invoked p _ _ _ _ (nodup_coords _ _ _ _)]
  simp

theorem renderer_cellCache_eq (p : RenderParams α) (k : Coord) :
    (defaultCellRangeRenderer p).cellCache k =
      if k ∈ rendererCoords p then
        (stepCell p (rendererKeyMap p) (rendererCanCacheStyle p)
          (p.cellCache k) (p.styleCache k) k).cellEntry
      else p.cellCache k := by
  simp only [defaultCellRangeRenderer, rangeRendererLoop, rendererCoords, rendererKeyMap,
    rendererCanCacheStyle]
  rw [renderLoop_cellCache p _ _ _ _ (nodup_coords _ _ _ _) k]

theorem renderer_styleCache_eq (p : RenderParams α) (k : Coord) :
    (defaultCellRangeRenderer p).styleCache k =
      if k ∈ rendererCoords p then
        (stepCell p (rendererKeyMap p) (rendererCanCacheStyle p)
          (p.cellCache k) (p.styleCache k) k).styleEntry
      else p.styleCache k := by
  simp only [defaultCellRangeRenderer, rangeRendererLoop, rendererCoords, rendererKeyMap,
    rendererCanCacheStyle]
  rw [renderLoop_styleCache p _ _ _ _ (nodup_coords _ _ _ _) k]

theorem renderer_lastMap_eq (p : RenderParams α) :
    (defaultCellRangeRenderer p).lastMap = rendererKeyMap p := rfl

/-- C4: under the recycler invariant and for a cell construction callback
that respects the identity key it is handed (as the repository instructs
application code to do), no two cells of the returned collection carry the
same identity key, and every returned cell's key is the slot key this call's
recycler assignment gives some coordinate of the rectangle; the cache-reuse
path enforces this by overwriting a stale cached key before the cell is
emitted. -/
theorem c4_unique_keys (p : RenderParams α)
    (hinj : p.lastMap.InjOn)
    (hr : ∀ q c', p.cellRenderer q = some c' → c'.key = q.key) :
    ((defaultCellRangeRenderer p).renderedCells.Pairwise fun a b => a.key ≠ b.key) ∧
    (∀ c', c' ∈ (defaultCellRangeRenderer p).renderedCells →
      ∃ k, k ∈ rendererCoords p ∧
        (defaultCellRangeRenderer p).lastMap.get k = some c'.key) := by
  have hperm : (defaultCellRangeRenderer p).renderedCells.Perm
      ((rendererCoords p).filterMap
        (fun k => (stepCell p (rendererKeyMap p) (rendererCanCacheStyle p)
          (p.cellCache k) (p.styleCache k) k).emitted)) := by
    rw [renderer_cells_eq]
    exact sortByKeyDesc_perm _
  have hrkm_inj : (rendererKeyMap p).InjOn := getReusableKeyMap_inj hinj
  have hkey : ∀ k, k ∈ rendererCoords p →
      ∀ c', (stepCell p (rendererKeyMap p) (rendererCanCacheStyle p)
        (p.cellCache k) (p.styleCache k) k).emitted = some c' →
      (rendererKeyMap p).get k = some c'.key := by
    intro k hk c' hc'
    have hs : ((rendererKeyMap p).get k).isSome := getReusableKeyMap_total hk
    obtain ⟨v, hv⟩ := Option.isSome_iff_exists.mp hs
    have hkv := stepCell_key p (rendererKeyMap p) _ _ _ k v hr hv c' hc'
    rw [hv, hkv]
  constructor
  · refine (hperm.pairwise_iff (fun hxy => fun he => hxy he.symm)).mpr ?_
    refine List.pairwise_filterMap.mpr ?_
    refine (nodup_coords _ _ _ _).imp_of_mem ?_
    intro a b ha hb hab c hc d hd
    rw [Option.mem_def] at hc hd
    have hca := hkey a ha c hc
    have hdb := hkey b hb d hd
    intro he
    apply hab
    exact hrkm_inj a b c.key hca (he ▸ hdb)
  · intro c' hc'
    obtain ⟨k, hk, hfk⟩ := List.mem_filterMap.mp (hperm.mem_iff.mp hc')
    exact ⟨k, hk, hkey k hk c' hfk⟩

theorem c4_unique_keys_witness :
    ((defaultCellRangeRenderer baseParams).renderedCells.Pairwise fun a b => a.key ≠ b.key) :=
  (c4_unique_keys baseParams KeyMap.InjOn_nil (fun q c' h => by
    have h' : ({ key := q.key, content := q.rowIndex * 100 + q.columnIndex } : Cell Nat) = c' :=
      Option.some.inj h
    rw [← h'])).1

/-- C6 counterexample: with the offset-adjustment flag set on the column
axis, a call over a fresh style cache still writes the freshly computed style
into the style cache (the store on the compute path is not guarded by
canCacheStyle), so the style cache is written during such a call. -/
theorem c6_cex_style_cache_written :
    ({ baseParams with
        columnSizeAndPositionManager := adjustedManager } : RenderParams Nat).styleCache (0, 0)
      = none ∧
    ((defaultCellRangeRenderer { baseParams with
        columnSizeAndPositionManager := adjustedManager }).styleCache (0, 0)).isSome = true := by
  constructor
  · rfl
  · decide

/-- C6 as amended: when either axis reports adjusted offsets the style cache
is never read (every output except the style cache itself is unchanged under
an arbitrary replacement of the style cache), but it is still written: every
non-placeholder coordinate of the rectangle gets the freshly computed style
stored. -/
theorem c6_adjusted_no_read_but_write (p : RenderParams α) (sc' : Coord → Option Style)
    (hadj : (p.columnSizeAndPositionManager.areOffsetsAdjusted ||
      p.rowSizeAndPositionManager.areOffsetsAdjusted) = true) :
    ((defaultCellRangeRenderer { p with styleCache := sc' }).renderedCells =
        (defaultCellRangeRenderer p).renderedCells ∧
      (defaultCellRangeRenderer { p with styleCache := sc' }).invoked =
        (defaultCellRangeRenderer p).invoked ∧
      ∀ k, (defaultCellRangeRenderer { p with styleCache := sc' }).cellCache k =
        (defaultCellRangeRenderer p).cellCache k) ∧
    (∀ k, k ∈ rendererCoords p →
      (∀ has, p.deferredMeasurementCache = some has → has k.1 k.2 = true) →
      (defaultCellRangeRenderer p).styleCache k = some (freshStyle p k)) := by
  have hccs : rendererCanCacheStyle p = false := by
    simp [rendererCanCacheStyle, hadj]
  have hccs' : rendererCanCacheStyle { p with styleCache := sc' } = false := by
    simp [rendererCanCacheStyle, hadj]
  have hstep : ∀ (cc : Option (Cell α)) (sc : Option Style) (rc : Coord),
      stepCell { p with styleCache := sc' } (rendererKeyMap p) false cc sc rc =
        stepCell p (rendererKeyMap p) false cc sc rc := fun _ _ _ => rfl
  refine ⟨⟨?_, ?_, ?_⟩, ?_⟩
  · rw [renderer_cells_eq, renderer_cells_eq]
    have hco : rendererCoords ({ p with styleCache := sc' } : RenderParams α) =
        rendererCoords p := rfl
    have hkm : rendererKeyMap ({ p with styleCache := sc' } : RenderParams α) =
        rendererKeyMap p := rfl
    rw [hco, hkm, hccs, hccs']
    congr 1
    apply List.filterMap_congr
    intro k _
    rw [hstep]
    exact (stepCell_nocache_congr p (rendererKeyMap p) (p.cellCache k) (sc' k)
      (p.styleCache k) k).1
  · rw [renderer_invoked_eq, renderer_invoked_eq]
    have hco : rendererCoords ({ p with styleCache := sc' } : RenderParams α) =
        rendererCoords p := rfl
    have hkm : rendererKeyMap ({ p with styleCache := sc' } : RenderParams α) =
        rendererKeyMap p := rfl
    rw [hco, hkm, hccs, hccs']
    apply List.filter_congr
    intro k _
    rw [hstep]
    rw [(stepCell_nocache_congr p (rendererKeyMap p) (p.cellCache k) (sc' k)
      (p.styleCache k) k).2.2]
  · intro k
    rw [renderer_cellCache_eq, renderer_cellCache_eq]
    have hco : rendererCoords ({ p with styleCache := sc' } : RenderParams α) =
        rendererCoords p := rfl
    have hkm : rendererKeyMap ({ p with styleCache := sc' } : RenderParams α) =
        rendererKeyMap p := rfl
    rw [hco, hkm, hccs, hccs']
    by_cases hmem : k ∈ rendererCoords p
    · rw [if_pos hmem, if_pos hmem]
      rw [hstep]
      exact (stepCell_nocache_congr p (rendererKeyMap p) (p.cellCache k) (sc' k)
        (p.styleCache k) k).2.1
    · rw [if_neg hmem, if_neg hmem]
  · intro k hk hdef
    rw [renderer_styleCache_eq, if_pos hk]
    rw [hccs]
    rw [stepCell_styleEntry]
    exact styleFor_snd_nocache p (p.styleCache k) k hdef

theorem c6_adjusted_no_read_but_write_witness :
    (defaultCellRangeRenderer { baseParams with
        columnSizeAndPositionManager := adjustedManager }).styleCache (0, 0) =
      some (freshStyle { baseParams with
        columnSizeAndPositionManager := adjustedManager } (0, 0)) :=
  (c6_adjusted_no_read_but_write
    { baseParams with columnSizeAndPositionManager := adjustedManager }
    (fun _ => none) (by decide)).2 (0, 0) (by decide) (fun has h => by cases h)

/-- C7 counterexample: a cell construction callback that answers the
render-nothing sentinel leaves no truthy entry in the content-instance cache,
so a second call with the same rectangle and caches invokes the callback for
the same coordinate again: two invocations for coordinate (0,0) across the
two calls, refuting at-most-once. -/
theorem c7_cex_sentinel_reinvoked :
    ((defaultCellRangeRenderer { baseParams with
        isScrolling := true
        cellRenderer := nullRenderer
        columnStopIndex := 0 }).invoked ++
      (defaultCellRangeRenderer { { baseParams with
          isScrolling := true
          cellRenderer := nullRenderer
          columnStopIndex := 0 } with
        cellCache := (defaultCellRangeRenderer { baseParams with
          isScrolling := true
          cellRenderer := nullRenderer
          columnStopIndex := 0 }).cellCache
        styleCache := (defaultCellRangeRenderer { baseParams with
          isScrolling := true
          cellRenderer := nullRenderer
          columnStopIndex := 0 }).styleCache
        lastMap := (defaultCellRangeRenderer { baseParams with
          isScrolling := true
          cellRenderer := nullRenderer
          columnStopIndex := 0 }).lastMap }).invoked).count (0, 0) = 2 := by decide

/-- C7 as amended: with isScrolling true, both offset adjustments zero, and a
cell construction callback that always returns a real cell (never the
render-nothing sentinel), a first call populates the content-instance cache
for every coordinate of the rectangle and invokes the callback at most once
per coordinate (its invocation list has no duplicates), and a second call
with the unchanged rectangle and the caches the first call left behind
invokes the callback for no coordinate at all: every cell is served from the
cache. -/
theorem c7_scrolling_cache_reuse (p : RenderParams α)
    (hscroll : p.isScrolling = true)
    (hh : p.horizontalOffsetAdjustment = 0)
    (hvv : p.verticalOffsetAdjustment = 0)
    (hr : ∀ q, (p.cellRenderer q).isSome) :
    (∀ k, k ∈ rendererCoords p → ((defaultCellRangeRenderer p).cellCache k).isSome) ∧
    (defaultCellRangeRenderer p).invoked.Nodup ∧
    (defaultCellRangeRenderer { p with
      cellCache := (defaultCellRangeRenderer p).cellCache
      styleCache := (defaultCellRangeRenderer p).styleCache
      lastMap := (defaultCellRangeRenderer p).lastMap }).invoked = [] := by
  have huse : useCellCache p = true := by
    simp [useCellCache, hscroll, hh, hvv]
  have hfirst : ∀ k, k ∈ rendererCoords p →
      ((defaultCellRangeRenderer p).cellCache k).isSome := by
    intro k hk
    rw [renderer_cellCache_eq, if_pos hk]
    exact stepCell_entry_isSome p _ _ _ _ k huse hr
  refine ⟨hfirst, ?_, ?_⟩
  · rw [renderer_invoked_eq]
    exact (nodup_coords _ _ _ _).filter _
  · set p2 : RenderParams α := { p with
      cellCache := (defaultCellRangeRenderer p).cellCache
      styleCache := (defaultCellRangeRenderer p).styleCache
      lastMap := (defaultCellRangeRenderer p).lastMap } with hp2
    have huse2 : useCellCache p2 = true := by
      simp [hp2, useCellCache, hscroll, hh, hvv]
    rw [renderer_invoked_eq]
    refine List.filter_eq_nil_iff.mpr ?_
    intro k hk
    have hk' : k ∈ rendererCoords p := hk
    obtain ⟨cell, hcell⟩ := Option.isSome_iff_exists.mp (hfirst k hk')
    have he : p2.cellCache k = some cell := hcell
    rw [he]
    rw [stepCell_invoked_cache_hit p2 _ _ cell _ k huse2]
    simp

theorem c7_scrolling_cache_reuse_witness :
    (defaultCellRangeRenderer { { baseParams with isScrolling := true } with
      cellCache := (defaultCellRangeRenderer { baseParams with isScrolling := true }).cellCache
      styleCache := (defaultCellRangeRenderer { baseParams with isScrolling := true }).styleCache
      lastMap := (defaultCellRangeRenderer { baseParams with isScrolling := true }).lastMap
      }).invoked = [] :=
  (c7_scrolling_cache_reuse { baseParams with isScrolling := true }
    rfl rfl rfl (fun _ => rfl)).2.2

/-- C8: on the cache-reuse path, when the cached cell's identity key differs
from the slot key the recycler assigned to its coordinate in this call, the
returned collection contains a copy of the cached cell with only the key
replaced (content identical), while the content-instance cache still holds
the original cached cell unchanged. -/
theorem c8_shallow_copy_on_key_mismatch (p : RenderParams α) (k : Coord) (cell : Cell α)
    (v : Nat)
    (huse : useCellCache p = true)
    (hk : k ∈ rendererCoords p)
    (hcc : p.cellCache k = some cell)
    (hv : (rendererKeyMap p).get k = some v)
    (hne : cell.key ≠ v) :
    (defaultCellRangeRenderer p).cellCache k = some cell ∧
    ({ key := v, content := cell.content } : Cell α) ∈
      (defaultCellRangeRenderer p).renderedCells := by
  have hstep := stepCell_cache_mismatch p (rendererKeyMap p) (rendererCanCacheStyle p) cell
    (p.styleCache k) k v huse hv hne
  constructor
  · rw [renderer_cellCache_eq, if_pos hk, hcc]
    exact hstep.1
  · rw [renderer_cells_eq]
    refine ((sortByKeyDesc_perm _).mem_iff).mpr ?_
    refine List.mem_filterMap.mpr ⟨k, hk, ?_⟩
    rw [hcc]
    exact hstep.2

theorem c8_shallow_copy_on_key_mismatch_witness :
    (defaultCellRangeRenderer { baseParams with
      isScrolling := true
      columnStopIndex := 0
      cellCache := fun k => if k = ((0, 0) : Coord) then some ⟨7, 42⟩ else none
      }).cellCache (0, 0) = some ⟨7, 42⟩ ∧
    (⟨1, 42⟩ : Cell Nat) ∈ (defaultCellRangeRenderer { baseParams with
      isScrolling := true
      columnStopIndex := 0
      cellCache := fun k => if k = ((0, 0) : Coord) then some ⟨7, 42⟩ else none
      }).renderedCells :=
  c8_shallow_copy_on_key_mismatch
    { baseParams with
      isScrolling := true
      columnStopIndex := 0
      cellCache := fun k => if k = ((0, 0) : Coord) then some ⟨7, 42⟩ else none }
    (0, 0) ⟨7, 42⟩ 1 (by decide) (by decide) (by decide) (by decide) (by decide)
